import Mathlib

/-!
Verification development for the `hera_cal` absolute-calibration core
(`src/hera_cal/abscal.py`, `src/hera_cal/utils.py`).

The Python code is shallowly embedded: visibility containers become
functions from baseline keys to index-parametrised arrays, NaN/Inf-carrying
numpy arrays become arrays over an explicit `FVal`/`CVal` sum type, and
in-place mutation becomes state passing (each embedded operation returns the
new value of every container the Python code writes to).  External numeric
collaborators (`linsolve`, `scipy.optimize.brute`, numpy transcendental
kernels) are modelled from the spec where noted; everything else is
translated from the source.
-/

/-! ## Polarizations and baseline keys (`hera_cal/utils.py`)

Polarization strings are pyuvdata-style: a visibility polarization such as
`'en'` splits into the two antenna polarizations `('Je', 'Jn')`.  We model a
canonical (pyuvdata-compliant) visibility polarization as the ordered pair
of its antenna polarizations; `split_pol` and `join_pol` are then the two
projections and the pair constructor. -/

/-- Antenna polarization labels (pyuvdata jstr, e.g. `'Je'`, `'Jn'`). -/
inductive AntPol where
  | je : AntPol
  | jn : AntPol
  | jx : AntPol
  | jy : AntPol
  | jr : AntPol
  | jl : AntPol
deriving DecidableEq, Repr

/-- A canonical visibility polarization string, e.g. `'en'`, as the pair of
its antenna polarizations (`utils.SPLIT_POL`). -/
structure VisPol where
  ai : AntPol
  aj : AntPol
deriving DecidableEq, Repr

/-- `utils.split_pol`: split a visibility polarization into the two antenna
polarizations. -/
def split_pol (p : VisPol) : AntPol × AntPol := (p.ai, p.aj)

/-- `utils.join_pol`: join two antenna polarizations into a visibility
polarization. -/
def join_pol (p1 p2 : AntPol) : VisPol := ⟨p1, p2⟩

/-- `pyuvdata.utils.conj_pol` on visibility polarizations: conjugating a
visibility swaps the two antenna polarizations (`'en' ↦ 'ne'`). -/
def conj_pol (p : VisPol) : VisPol := ⟨p.aj, p.ai⟩

/-- `utils._comply_vispol` restricted to canonical polarizations: on the
canonical form (which is what `VisPol` represents) it is the identity. -/
def comply_vispol (p : VisPol) : VisPol := p

/-- A baseline key: either an antenna pair `(i, j)` or an antenna pair with
a visibility polarization `(i, j, pol)`, as accepted by `utils.reverse_bl`. -/
inductive Bl where
  | pair (i j : ℤ) : Bl
  | trip (i j : ℤ) (pol : VisPol) : Bl
deriving DecidableEq, Repr

/-- `utils.reverse_bl` (utils.py lines 75-82): reverse `(i,j)` to `(j,i)`,
and `(i,j,pol)` to `(j,i,conj_pol(_comply_vispol(pol)))`. -/
def reverse_bl : Bl → Bl
  | .pair i j => .pair j i
  | .trip i j pol => .trip j i (conj_pol (comply_vispol pol))

/-- A three-element baseline-polarization key `(i, j, pol)` as used by the
abscal solvers. -/
structure BlKey where
  i : ℤ
  j : ℤ
  pol : VisPol
deriving DecidableEq, Repr

/-! ## Gain dictionaries and `merge_gains` (abscal.py lines 905-945)

A gain (or flag) dictionary maps `(ant, pol)` keys to arrays.  We model a
dictionary as a finite key set together with a total valuation; `get k dflt`
is Python's `dict.get(k, dflt)`. -/

/-- A gain/flag dictionary: a finite set of keys plus a valuation.
Values at keys outside `keys` are irrelevant (Python would raise KeyError). -/
structure GDict (K : Type) (V : Type) where
  keys : Finset K
  val : K → V

/-- Python `g.get(k, dflt)`. -/
def GDict.get [DecidableEq K] (g : GDict K V) (k : K) (dflt : V) : V :=
  if k ∈ g.keys then g.val k else dflt

/-- Shared-key computation of `merge_gains` with `merge_shared=True`:
`reduce(operator.and_, [set(g.keys()) for g in gains])`, the left fold of
set intersection over the list of key sets. -/
def merge_gains_shared_keys [DecidableEq K] (gains : List (GDict K V)) : Finset K :=
  match gains with
  | [] => ∅
  | g :: gs => gs.foldl (fun acc g' => acc ∩ g'.keys) g.keys

/-- `abscal.merge_gains` with `merge_shared=True` on gain dictionaries of
complex arrays: the merged value at each shared key is
`reduce(operator.mul, [g.get(k, 1.0) for g in gains])`.  The numpy dtype
dispatch (`fedflags`) selects this multiplicative branch when the arrays are
not boolean. -/
def merge_gains {K : Type} {I : Type} [DecidableEq K] (gains : List (GDict K (I → ℂ))) : GDict K (I → ℂ) :=
  { keys := merge_gains_shared_keys gains
    val := fun k => (gains.map (fun g => g.get k (fun _ => 1))).foldl (fun a b i => a i * b i) (fun _ => 1) }

/-- `abscal.merge_gains` with `merge_shared=True` on flag dictionaries of
boolean arrays: the `fedflags` branch merges with
`reduce(operator.add, [g.get(k, True) for g in gains])`, and `+` on numpy
boolean arrays is elementwise logical OR. -/
def merge_flags {K : Type} {I : Type} [DecidableEq K] (gains : List (GDict K (I → Bool))) : GDict K (I → Bool) :=
  { keys := merge_gains_shared_keys gains
    val := fun k => (gains.map (fun g => g.get k (fun _ => true))).foldl (fun a b i => a i || b i) (fun _ => false) }

/-! ## numpy values with NaN and Inf

Calibration arrays hold floats that may be NaN or infinite; the solvers
scrub such entries before solving.  We model a numpy scalar as a finite
value over an abstract scalar type (instantiated with `ℝ` in theorems and
with `ℚ` in executable witnesses), or the symbol NaN, or an infinity (the
sign of an infinity never matters to the scrubbing logic, so a single
symbol suffices).  Complex scalars are modelled the same way (`CVal`), with
all non-finite complex values collapsed onto NaN/Inf symbols. -/

/-- A numpy real scalar: finite, NaN, or infinite. -/
inductive FVal (A : Type) where
  | fin (x : A) : FVal A
  | nan : FVal A
  | inf : FVal A
deriving DecidableEq, Repr

/-- `np.isnan` on a real scalar. -/
def FVal.isnan {A : Type} : FVal A → Bool
  | .nan => true
  | _ => false

/-- `np.isinf` on a real scalar. -/
def FVal.isinf {A : Type} : FVal A → Bool
  | .inf => true
  | _ => false

/-- `np.isfinite` on a real scalar. -/
def FVal.isfinite {A : Type} : FVal A → Bool
  | .fin _ => true
  | _ => false

/-- Extract the finite value, mapping the non-finite symbols to 0.  Used to
embed numpy code that overwrites non-finite entries with 0
(e.g. `d[~np.isfinite(d)] = 0.` in `utils.interp_peak`, line 227), and to
read out arrays that have already been scrubbed. -/
def FVal.forceFin {A : Type} [Zero A] : FVal A → A
  | .fin x => x
  | _ => 0

/-- A numpy complex scalar: finite, NaN, or infinite. -/
inductive CVal (G : Type) where
  | fin (z : G) : CVal G
  | nan : CVal G
  | inf : CVal G
deriving DecidableEq, Repr

/-- `np.isnan` on a complex scalar (true when any component is NaN). -/
def CVal.isnan {G : Type} : CVal G → Bool
  | .nan => true
  | _ => false

/-- `np.isinf` on a complex scalar. -/
def CVal.isinf {G : Type} : CVal G → Bool
  | .inf => true
  | _ => false

/-- `np.isfinite` on a complex scalar. -/
def CVal.isfinite {G : Type} : CVal G → Bool
  | .fin _ => true
  | _ => false

/-- numpy complex division `data / model` on the finite/NaN/Inf
abstraction: NaN absorbs; `inf/inf` is NaN; `inf/z` is infinite; `z/inf`
is 0; division by a zero denominator yields a non-finite result (numpy
emits a mix of NaN and Inf components there; we use NaN for `0/0` and Inf
otherwise — every downstream consumer treats the two identically, scrubbing
both to zero data and zero weight). -/
def cdiv {G : Type} [DivisionRing G] [DecidableEq G] : CVal G → CVal G → CVal G
  | .nan, _ => .nan
  | _, .nan => .nan
  | .inf, .inf => .nan
  | .inf, .fin _ => .inf
  | .fin _, .inf => .fin 0
  | .fin z, .fin w => if w = 0 then (if z = 0 then .nan else .inf) else .fin (z / w)

/-- `np.log(np.abs(z))`: the finite kernel `logabs` (instantiated with
`Real.log ∘ Complex.abs` in theorems) applies to finite nonzero `z`;
`np.abs(0) = 0` has logarithm `-inf`, NaN propagates, and an infinite `z`
has infinite log-magnitude. -/
def clogabs {G A : Type} [Zero G] [DecidableEq G] (logabs : G → A) : CVal G → FVal A
  | .fin z => if z = 0 then .inf else .fin (logabs z)
  | .nan => .nan
  | .inf => .inf

/-- `np.angle(z)`: the finite kernel `angle` (instantiated with
`Complex.arg` in theorems) applies to finite `z`; the angle of a NaN is
NaN.  A `CVal.inf` collapses every infinite complex value onto one symbol,
so its (component-direction-dependent, generally NaN) angle is modelled as
NaN. -/
def cangle {G A : Type} (angle : G → A) : CVal G → FVal A
  | .fin z => .fin (angle z)
  | .nan => .nan
  | .inf => .nan

/-! ## `fill_dict_nans` (abscal.py lines 1360-1402)

In-place mutation of the data and weight arrays becomes state passing: the
function returns the new values of both containers. -/

/-- The `array=True` branch of `abscal.fill_dict_nans` (lines 1376-1386):
first replace NaNs with `nan_fill` and zero their weights, then replace
Infs of the updated array with `inf_fill` and zero their weights; a `none`
fill skips the corresponding pass. -/
def fill_array_nans {A I : Type} [Zero A] (data : I → FVal A) (wgts : I → A)
    (nan_fill inf_fill : Option A) : (I → FVal A) × (I → A) :=
  let d1 : I → FVal A := fun i => match nan_fill with
    | some v => if (data i).isnan then .fin v else data i
    | none => data i
  let w1 : I → A := fun i => match nan_fill with
    | some _ => if (data i).isnan then 0 else wgts i
    | none => wgts i
  let d2 : I → FVal A := fun i => match inf_fill with
    | some v => if (d1 i).isinf then .fin v else d1 i
    | none => d1 i
  let w2 : I → A := fun i => match inf_fill with
    | some _ => if (d1 i).isinf then 0 else w1 i
    | none => w1 i
  (d2, w2)

/-- The dictionary branch of `abscal.fill_dict_nans` (lines 1388-1402): the
array branch applied under every key. -/
def fill_dict_nans {A K I : Type} [Zero A] (data : K → I → FVal A) (wgts : K → I → A)
    (nan_fill inf_fill : Option A) : (K → I → FVal A) × (K → I → A) :=
  (fun k => (fill_array_nans (data k) (wgts k) nan_fill inf_fill).1,
   fun k => (fill_array_nans (data k) (wgts k) nan_fill inf_fill).2)

/-! ## Data preparation of the logcal solvers

`amp_logcal`, `phs_logcal`, `abs_amp_logcal` and `TT_phs_logcal` all build
a fresh observed-quantity array from `data[k] / model[k]` (a new numpy
array: the inputs are not written) and then call
`fill_dict_nans(ydata, wgts=wgts, nan_fill=0.0, inf_fill=0.0)`, which
mutates the caller's weight arrays in place.  Each `*_prep` value holds the
post-preparation contents of all four containers. -/

/-- The containers after a logcal solver's data-preparation phase. -/
structure PrepState (G A K I : Type) where
  model : K → I → CVal G
  data : K → I → CVal G
  ydata : K → I → FVal A
  wgts : K → I → A

/-- `abscal.amp_logcal` data preparation (lines 300-315):
`ydata[k] = np.log(np.abs(data[k] / model[k]))`, then
`fill_dict_nans(ydata, wgts, 0.0, 0.0)`. -/
def amp_logcal_prep {G A K I : Type} [DivisionRing G] [DecidableEq G] [Zero A]
    (logabs : G → A) (model data : K → I → CVal G) (wgts : K → I → A) : PrepState G A K I :=
  let ydata : K → I → FVal A := fun k i => clogabs logabs (cdiv (data k i) (model k i))
  let filled := fill_dict_nans ydata wgts (some 0) (some 0)
  { model := model, data := data, ydata := filled.1, wgts := filled.2 }

/-- `abscal.phs_logcal` data preparation (lines 369-384):
`ydata[k] = np.angle(data[k] / model[k])`, then
`fill_dict_nans(ydata, wgts, 0.0, 0.0)`. -/
def phs_logcal_prep {G A K I : Type} [DivisionRing G] [DecidableEq G] [Zero A]
    (angle : G → A) (model data : K → I → CVal G) (wgts : K → I → A) : PrepState G A K I :=
  let ydata : K → I → FVal A := fun k i => cangle angle (cdiv (data k i) (model k i))
  let filled := fill_dict_nans ydata wgts (some 0) (some 0)
  { model := model, data := data, ydata := filled.1, wgts := filled.2 }

/-- `abscal.abs_amp_logcal` data preparation (lines 94-109):
`ydata[k] = np.log(np.abs(data[k] / model[k]))`, then
`fill_dict_nans(ydata, wgts, 0.0, 0.0)`. -/
def abs_amp_logcal_prep {G A K I : Type} [DivisionRing G] [DecidableEq G] [Zero A]
    (logabs : G → A) (model data : K → I → CVal G) (wgts : K → I → A) : PrepState G A K I :=
  let ydata : K → I → FVal A := fun k i => clogabs logabs (cdiv (data k i) (model k i))
  let filled := fill_dict_nans ydata wgts (some 0) (some 0)
  { model := model, data := data, ydata := filled.1, wgts := filled.2 }

/-- `abscal.TT_phs_logcal` data preparation (lines 198-215):
`ydata[k] = np.angle(data[k] / model[k])`, then
`fill_dict_nans(ydata, wgts, 0.0, 0.0)`. -/
def TT_phs_logcal_prep {G A K I : Type} [DivisionRing G] [DecidableEq G] [Zero A]
    (angle : G → A) (model data : K → I → CVal G) (wgts : K → I → A) : PrepState G A K I :=
  let ydata : K → I → FVal A := fun k i => cangle angle (cdiv (data k i) (model k i))
  let filled := fill_dict_nans ydata wgts (some 0) (some 0)
  { model := model, data := data, ydata := filled.1, wgts := filled.2 }

/-! ## Data preparation of the delay solvers (abscal.py lines 481-510 and 643-669)

`delay_lincal` and `delay_slope_lincal` form `ratio = data[k] / model[k]`
(a fresh array), zero its NaNs and Infs while zeroing the caller's weights
there in place, run `utils.fft_dly` on the scrubbed ratio, and then zero
any NaN delay together with its per-integration weight `rwgts`. -/

/-- The containers after a delay solver's ratio-scrub phase. -/
structure DelayPrepState (G A K I : Type) where
  model : K → I → CVal G
  data : K → I → CVal G
  ratio : K → I → CVal G
  wgts : K → I → A

/-- `abscal.delay_lincal` ratio scrub (lines 481-492): per shared key,
`ratio = data[k] / model[k]`; `ratio[np.isnan(ratio)] = 0` with
`wgts[k][np.isnan(ratio)] = 0`; then the same for `np.isinf` of the
updated ratio. -/
def delay_lincal_ratio_scrub {G A K I : Type} [DivisionRing G] [DecidableEq G] [Zero A]
    (model data : K → I → CVal G) (wgts : K → I → A) : DelayPrepState G A K I :=
  let ratio : K → I → CVal G := fun k i => cdiv (data k i) (model k i)
  let r1 : K → I → CVal G := fun k i => if (ratio k i).isnan then .fin 0 else ratio k i
  let w1 : K → I → A := fun k i => if (ratio k i).isnan then 0 else wgts k i
  let r2 : K → I → CVal G := fun k i => if (r1 k i).isinf then .fin 0 else r1 k i
  let w2 : K → I → A := fun k i => if (r1 k i).isinf then 0 else w1 k i
  { model := model, data := data, ratio := r2, wgts := w2 }

/-- `abscal.delay_slope_lincal` ratio scrub (lines 643-654): identical to
the `delay_lincal` loop body. -/
def delay_slope_lincal_ratio_scrub {G A K I : Type} [DivisionRing G] [DecidableEq G] [Zero A]
    (model data : K → I → CVal G) (wgts : K → I → A) : DelayPrepState G A K I :=
  let ratio : K → I → CVal G := fun k i => cdiv (data k i) (model k i)
  let r1 : K → I → CVal G := fun k i => if (ratio k i).isnan then .fin 0 else ratio k i
  let w1 : K → I → A := fun k i => if (ratio k i).isnan then 0 else wgts k i
  let r2 : K → I → CVal G := fun k i => if (r1 k i).isinf then .fin 0 else r1 k i
  let w2 : K → I → A := fun k i => if (r1 k i).isinf then 0 else w1 k i
  { model := model, data := data, ratio := r2, wgts := w2 }

/-- The delay array of `utils.fft_dly` (line 144):
`dlys = (fftfreqs[inds] + bin_shifts * dtau)`.  `peakFreq t` abstracts the
FFT-peak frequency `fftfreqs[inds[t]]` (an entry of `np.fft.fftfreq`,
always finite) and `binShift t` the raw Quinn bin shift for integration
`t`; `utils.interp_peak` (line 227, `d[~np.isfinite(d)] = 0.`) forces
non-finite shifts to zero, so the delay returned for every integration is
finite. -/
def fft_dly_dlys {A T : Type} [Zero A] [Add A] [Mul A]
    (peakFreq : T → A) (binShift : T → FVal A) (dtau : A) : T → FVal A :=
  fun t => .fin (peakFreq t + (binShift t).forceFin * dtau)

/-- `rwgts = np.nanmean(wgts[k], axis=1, keepdims=True)`
(abscal.py line 498): the frequency-axis mean of the (NaN-free, per the
Weight Container invariant) weight array. -/
def delay_lincal_rwgts {A T F : Type} [Fintype F] [Field A]
    (wgts : T → F → A) : T → A :=
  fun t => (∑ f : F, wgts t f) / (Fintype.card F : A)

/-- `abscal.delay_lincal` delay scrub (lines 499-502): `isnan = np.isnan(dly)`;
`dly[isnan] = 0`, `rwgts[isnan] = 0`, `offset[isnan] = 0`. -/
def delay_lincal_dly_scrub {A T : Type} [Zero A]
    (dly offset : T → FVal A) (rwgts : T → A) : (T → FVal A) × (T → FVal A) × (T → A) :=
  (fun t => if (dly t).isnan then .fin 0 else dly t,
   fun t => if (dly t).isnan then .fin 0 else offset t,
   fun t => if (dly t).isnan then 0 else rwgts t)

/-! ## Linear systems and the linsolve adapter

linsolve equations are strings such as `"a0*eta_Jee+a0*eta_Jee"` or
`"phi_0_Jee - phi_1_Jee"`: a sum of product terms, each a constant times a
named unknown; `linsolve` accumulates the constants of repeated terms into
the coefficient matrix.  We model an equation as its list of
(constant, unknown) terms together with its per-sample data and weight
arrays. -/

/-- The named unknowns of the abscal linear systems: `eta_{p}`
(`abs_amp_logcal`), `eta_{a}_{p}` (`amp_logcal`), `phi_{a}_{p}`
(`phs_logcal` / `delay_lincal` offsets), `tau_{a}_{p}` (`delay_lincal`). -/
inductive Unk where
  | eta (p : AntPol) : Unk
  | etaAnt (a : ℤ) (p : AntPol) : Unk
  | phi (a : ℤ) (p : AntPol) : Unk
  | tau (a : ℤ) (p : AntPol) : Unk
deriving DecidableEq, Repr

/-- One linsolve equation: product terms plus data and weight arrays.
linsolve dictionaries are keyed by the equation string; all systems
embedded here build pairwise-distinct strings, so a list is faithful. -/
structure LinEq (A I : Type) where
  terms : List (A × Unk)
  ydata : I → A
  wgts : I → A

/-- The linear combination `sum of coeff * x[unknown]` described by an
equation's terms (repeated terms accumulate, as in linsolve's sparse
matrix assembly). -/
def LinEq.lhs {A I : Type} [CommRing A] (e : LinEq A I) (x : Unk → A) : A :=
  (e.terms.map (fun t => t.1 * x t.2)).sum

/-- Modelled from the spec: the Linear Solver Adapter
(`linsolve.LinearSolver(ls_data, wgts=ls_wgts, ...).solve()`) is an
external collaborator performing a weighted linear least-squares solve,
broadcast independently over the time/frequency samples.  Its weighted
squared-residual objective at one sample. -/
def lsCostAt {A I : Type} [CommRing A] (sys : List (LinEq A I)) (x : Unk → A) (i : I) : A :=
  (sys.map (fun e => e.wgts i * (e.ydata i - e.lhs x) ^ 2)).sum

/-- Modelled from the spec: `fit` is a best-fit returned by the Linear
Solver Adapter when, at every sample, it minimizes the weighted squared
residuals over all assignments of the named unknowns. -/
def IsWLSFit {A I : Type} [LinearOrderedCommRing A] (sys : List (LinEq A I)) (fit : Unk → I → A) : Prop :=
  ∀ i : I, ∀ x : Unk → A, lsCostAt sys (fun u => fit u i) i ≤ lsCostAt sys x i

/-- The linsolve system assembled by `abscal.abs_amp_logcal`
(lines 94-122): per shared key the equation
`"a{i}*eta_{x}+a{i}*eta_{y}"` with design-matrix constant `a{i} = 1.0`
(the dummy `a{i}` only keeps repeated equation strings distinct), data the
scrubbed `ln|data/model|` array and weight the scrubbed weight array. -/
def abs_amp_logcal_system {G A I : Type} [DivisionRing G] [DecidableEq G] [Zero A] [One A]
    (logabs : G → A) (keys : List BlKey)
    (model data : BlKey → I → CVal G) (wgts : BlKey → I → A) : List (LinEq A I) :=
  let prep := abs_amp_logcal_prep logabs model data wgts
  keys.map (fun k =>
    { terms := [((1 : A), Unk.eta (split_pol k.pol).1), ((1 : A), Unk.eta (split_pol k.pol).2)]
      ydata := fun i => (prep.ydata k i).forceFin
      wgts := fun i => prep.wgts k i })

/-- The `return_gains=True` postprocessing of `abscal.abs_amp_logcal`
(line 130): `{ant: np.exp(fit["eta_" + pol]).astype(complex) for ant in gain_ants}`.
`cexp` abstracts numpy real `exp` followed by the cast to complex
(instantiated with `Complex.ofReal ∘ Real.exp` in theorems). -/
def abs_amp_logcal_gains {A G I : Type} (cexp : A → G) (fit : Unk → I → A)
    (gain_ants : List (ℤ × AntPol)) : GDict (ℤ × AntPol) (I → G) :=
  ⟨gain_ants.toFinset, fun ant i => cexp (fit (Unk.eta ant.2) i)⟩

/-- `gain_pols = np.unique(...)`: the deduplicated list of antenna
polarizations appearing on either side of a shared key (phs_logcal
line 396, delay_lincal line 530). -/
def gain_pols (keys : List BlKey) : List AntPol :=
  (keys.flatMap (fun k => [(split_pol k.pol).1, (split_pol k.pol).2])).dedup

/-- The linsolve system assembled by `abscal.phs_logcal` (lines 369-405):
per shared key the difference equation `"phi_{i}_{x} - phi_{j}_{y}"` with
the scrubbed `angle(data/model)` data, then — lines 398-405 — for every
gain polarization the synthetic reference-antenna equation
`ls_data["phi_{refant}_{p}"] = np.zeros_like(...)`,
`ls_wgts["phi_{refant}_{p}"] = np.ones_like(...)`. -/
def phs_logcal_system {G A I : Type} [DivisionRing G] [DecidableEq G] [CommRing A]
    (angle : G → A) (keys : List BlKey)
    (model data : BlKey → I → CVal G) (wgts : BlKey → I → A) (refant : ℤ) : List (LinEq A I) :=
  let prep := phs_logcal_prep angle model data wgts
  keys.map (fun k =>
    { terms := [((1 : A), Unk.phi k.i (split_pol k.pol).1), ((-1 : A), Unk.phi k.j (split_pol k.pol).2)]
      ydata := fun i => (prep.ydata k i).forceFin
      wgts := fun i => prep.wgts k i })
  ++ (gain_pols keys).map (fun p =>
    { terms := [((1 : A), Unk.phi refant p)]
      ydata := fun _ => 0
      wgts := fun _ => 1 })

/-- The delay part of the linsolve system assembled by
`abscal.delay_lincal` (lines 518-539): per shared key the difference
equation `"tau_{i}_{x} - tau_{j}_{y}"` carrying the per-integration delay
`ydata` and weight `ywgts` arrays produced by the `fft_dly` stage, then —
lines 537-539 — for every gain polarization the synthetic
reference-antenna equation `ls_data["tau_{refant}_{p}"] = np.zeros_like(...)`,
`ls_wgts["tau_{refant}_{p}"] = np.ones_like(...)`. -/
def delay_lincal_tau_system {A T : Type} [CommRing A]
    (keys : List BlKey) (ydata ywgts : BlKey → T → A) (refant : ℤ) : List (LinEq A T) :=
  keys.map (fun k =>
    { terms := [((1 : A), Unk.tau k.i (split_pol k.pol).1), ((-1 : A), Unk.tau k.j (split_pol k.pol).2)]
      ydata := ydata k
      wgts := ywgts k })
  ++ (gain_pols keys).map (fun p =>
    { terms := [((1 : A), Unk.tau refant p)]
      ydata := fun _ => 0
      wgts := fun _ => 1 })

/-! ## The iterative phase stages of `post_redcal_abscal`
(abscal.py lines 3046-3054 and 3057-3064) -/

/-- One iterative phase stage of `abscal.post_redcal_abscal`:
`for i in range(phs_max_iter): <solve, accumulate, calibrate>;
if crit < phs_conv_crit: break`.  `advance` abstracts the loop body — one
`global_phase_slope_logcal` (resp. `TT_phs_logcal`) solve with
`return_gains=True`, the multiplication of `gains_here` into
`abscal_delta_gains`, and `apply_cal.calibrate_in_place` on the working
data — returning the updated state together with the criterion
`crit = np.median(np.linalg.norm([gains_here[k] - 1.0 ...], axis=(0, 1)))`.
Returns the final state and the number of loop-body executions. -/
def post_redcal_phase_loop {St B : Type} [LT B] [DecidableRel (α := B) (· < ·)]
    (advance : St → St × B) (phs_conv_crit : B) : ℕ → St → St × ℕ
  | 0, s => (s, 0)
  | n + 1, s =>
    let step := advance s
    if step.2 < phs_conv_crit then (step.1, 1)
    else
      let rest := post_redcal_phase_loop advance phs_conv_crit n step.1
      (rest.1, rest.2 + 1)

/-- The state reached after running the loop body `n` times with no early
exit. -/
def advance_iterate {St B : Type} (advance : St → St × B) : ℕ → St → St
  | 0, s => s
  | n + 1, s => advance_iterate advance n (advance s).1

/-! ## Preconditions of `global_phase_slope_logcal`
(abscal.py lines 814-817 and 882-884) -/

/-- `abscal.PHASE_SLOPE_SOLVERS` (line 50). -/
def PHASE_SLOPE_SOLVERS : List String := ["linfit", "dft"]

/-- The raisable conditions of `global_phase_slope_logcal`. -/
inductive GPSLErr where
  | assertSolver : GPSLErr
  | assertEdgeCut : GPSLErr
  | notImplementedCrossPol : GPSLErr
deriving DecidableEq, Repr

/-- The checks of `abscal.global_phase_slope_logcal`:
`assert solver in PHASE_SLOPE_SOLVERS` (line 815),
`assert 2 * edge_cut < list(data.values())[0].shape[1] - 1` (line 817),
and — inside the `dft` branch, before any DFT solving (lines 882-884) —
`raise NotImplementedError` unless
`np.all([split_pol(pol)[0] == split_pol(pol)[1] for pol in data.pols()])`.
The data averaging and equation building between the asserts and the
cross-polarization check cannot raise and is not represented here;
`nfreqs` is the frequency-axis length of the data arrays and `pols` the
list of data polarizations. -/
def global_phase_slope_logcal_checks (solver : String) (nfreqs edge_cut : ℕ)
    (pols : List VisPol) : Except GPSLErr Unit :=
  if solver ∉ PHASE_SLOPE_SOLVERS then .error .assertSolver
  else if ¬ (2 * (edge_cut : ℤ) < (nfreqs : ℤ) - 1) then .error .assertEdgeCut
  else if solver = "dft" ∧ ¬ (pols.all (fun pol => (split_pol pol).1 = (split_pol pol).2)) then
    .error .notImplementedCrossPol
  else .ok ()

/-! ## `dft_phase_slope_solver` (abscal.py lines 714-759) and the
median scrub of `global_phase_slope_logcal` (lines 871-873) -/

/-- `abscal.dft_phase_slope_solver`: `flags = flags | np.isnan(data)`;
`slope_x`/`slope_y` start as `np.zeros_like(...)`; each output pixel `j`
is solved only under `if not np.all(np.isnan(dflat[:, j]))`, in which case
`scipy.optimize.brute` over `dft_abs` followed by `minimize` refinement —
an external numerical collaborator, abstracted by `peak`, fed the
unflagged positions and data of that pixel — supplies the two slopes. -/
def dft_phase_slope_solver {G A : Type} [Zero A] {n : ℕ} {J : Type}
    (peak : List (A × A × CVal G) → A × A)
    (xs ys : Fin n → A) (data : Fin n → J → CVal G) (flags : Fin n → J → Bool) :
    (J → A) × (J → A) :=
  let fflat : Fin n → J → Bool := fun r j => flags r j || (data r j).isnan
  let unflagged : J → List (A × A × CVal G) := fun j =>
    ((List.finRange n).filter (fun r => ! fflat r j)).map (fun r => (xs r, ys r, data r j))
  (fun j => if (List.finRange n).all (fun r => (data r j).isnan) then 0 else (peak (unflagged j)).1,
   fun j => if (List.finRange n).all (fun r => (data r j).isnan) then 0 else (peak (unflagged j)).2)

/-- The unobserved-data scrub of `abscal.global_phase_slope_logcal`
(lines 871-873): `ls_wgts[eqn_str][np.isnan(ls_data[eqn_str])] = 0` then
`ls_data[eqn_str][np.isnan(ls_data[eqn_str])] = 0`, applied to the
per-equation frequency-median data (`np.nanmedian(...)`, NaN when every
sample of an integration is flagged). -/
def global_phase_slope_nan_scrub {A E T : Type} [Zero A]
    (ls_data : E → T → FVal A) (ls_wgts : E → T → A) :
    (E → T → FVal A) × (E → T → A) :=
  (fun e t => if (ls_data e t).isnan then .fin 0 else ls_data e t,
   fun e t => if (ls_data e t).isnan then 0 else ls_wgts e t)

/-! ## `cut_bls` (abscal.py lines 1749-1774) -/

/-- The raisable conditions of `abscal.cut_bls`. -/
inductive CutBlsErr where
  | keyError : CutBlsErr
  | emptyAfterCut : CutBlsErr
deriving DecidableEq, Repr

/-- The per-key loop body of `abscal.cut_bls` (lines 1765-1770), returning
`some kv` when the entry is kept and `none` when it is deleted:
`bl_len = np.linalg.norm(bls[k])` (a `KeyError` when `k` is missing from
`bls`), then `if k not in bls: continue`, then delete when
`bl_len > max_bl_cut or bl_len < min_bl_cut`.  `norm` abstracts
`np.linalg.norm` on position vectors. -/
def cut_bls_step {B P V : Type} [LinearOrder B] (norm : P → B)
    (bls : List (Bl × P)) (min_bl_cut max_bl_cut : B) (kv : Bl × V) :
    Except CutBlsErr (Option (Bl × V)) :=
  match bls.lookup kv.1 with
  | none => .error .keyError
  | some p =>
    let bl_len := norm p
    if (bls.lookup kv.1).isNone then .ok (some kv)
    else if bl_len > max_bl_cut ∨ bl_len < min_bl_cut then .ok none
    else .ok (some kv)

/-- The loop body of `abscal.cut_bls` with the dead `if k not in bls:
continue` guard removed. -/
def cut_bls_step_noguard {B P V : Type} [LinearOrder B] (norm : P → B)
    (bls : List (Bl × P)) (min_bl_cut max_bl_cut : B) (kv : Bl × V) :
    Except CutBlsErr (Option (Bl × V)) :=
  match bls.lookup kv.1 with
  | none => .error .keyError
  | some p =>
    let bl_len := norm p
    if bl_len > max_bl_cut ∨ bl_len < min_bl_cut then .ok none
    else .ok (some kv)

/-- The key loop of `abscal.cut_bls` (lines 1765-1770): apply the loop
body under every key of the container, keeping or deleting entries (`del
datacontainer[k]`), and propagate the first raised error; then
`assert len(datacontainer) > 0, "no baselines were kept ..."`
(line 1772). -/
def cut_bls_fold {V : Type} (step : (Bl × V) → Except CutBlsErr (Option (Bl × V)))
    (datacontainer : List (Bl × V)) : Except CutBlsErr (List (Bl × V)) := do
  let kept ← datacontainer.foldlM (fun acc kv => do
    match ← step kv with
    | some kv' => pure (acc ++ [kv'])
    | none => pure acc) []
  if kept.length = 0 then .error .emptyAfterCut else .ok kept

/-- `abscal.cut_bls` (lines 1765-1774) with `bls` supplied. -/
def cut_bls {B P V : Type} [LinearOrder B] (norm : P → B)
    (datacontainer : List (Bl × V)) (bls : List (Bl × P)) (min_bl_cut max_bl_cut : B) :
    Except CutBlsErr (List (Bl × V)) :=
  cut_bls_fold (cut_bls_step norm bls min_bl_cut max_bl_cut) datacontainer

/-- `abscal.cut_bls` with the dead membership guard removed from its loop
body. -/
def cut_bls_noguard {B P V : Type} [LinearOrder B] (norm : P → B)
    (datacontainer : List (Bl × V)) (bls : List (Bl × P)) (min_bl_cut max_bl_cut : B) :
    Except CutBlsErr (List (Bl × V)) :=
  cut_bls_fold (cut_bls_step_noguard norm bls min_bl_cut max_bl_cut) datacontainer

/-! ## The C1 concrete scenario (spec section 8)

Two antennas `{0, 1}`, one baseline `(0, 1, 'ee')`, `model = np.ones((10, 16))`
complex, `data = model * 2.0`, `wgts = np.ones((10, 16))`. -/

/-- The single shared baseline key `(0, 1, 'ee')` of the scenario. -/
def C1_keys : List BlKey := [⟨0, 1, ⟨AntPol.je, AntPol.je⟩⟩]

/-- `model = np.ones((10, 16), dtype=complex)`. -/
def C1_model : BlKey → Fin 10 × Fin 16 → CVal ℂ := fun _ _ => CVal.fin 1

/-- `data = model * 2.0`. -/
def C1_data : BlKey → Fin 10 × Fin 16 → CVal ℂ := fun _ _ => CVal.fin 2

/-- `wgts = np.ones((10, 16))`. -/
def C1_wgts : BlKey → Fin 10 × Fin 16 → ℝ := fun _ _ => 1

/-! Helper lemmas about the shared-key fold. -/

theorem merge_gains_shared_keys_cons [DecidableEq K] (g : GDict K V) (gs : List (GDict K V)) :
    merge_gains_shared_keys (g :: gs) = gs.foldl (fun acc g' => acc ∩ g'.keys) g.keys := rfl

theorem foldl_inter_subset [DecidableEq K] (gs : List (GDict K V)) (s : Finset K) :
    gs.foldl (fun acc g' => acc ∩ g'.keys) s ⊆ s := by
  induction gs generalizing s with
  | nil => simp [List.foldl]
  | cons g gs ih =>
    intro x hx
    have := ih (s ∩ g.keys) hx
    exact (Finset.mem_inter.mp this).1

theorem mem_foldl_inter [DecidableEq K] (gs : List (GDict K V)) (s : Finset K) (x : K) :
    x ∈ gs.foldl (fun acc g' => acc ∩ g'.keys) s ↔ x ∈ s ∧ ∀ g ∈ gs, x ∈ g.keys := by
  induction gs generalizing s with
  | nil => simp [List.foldl]
  | cons g gs ih =>
    simp only [List.foldl, ih (s ∩ g.keys), Finset.mem_inter, List.mem_cons]
    constructor
    · rintro ⟨⟨hs, hg⟩, hrest⟩
      exact ⟨hs, fun g' hg' => hg'.elim (fun h => h ▸ hg) (hrest g')⟩
    · rintro ⟨hs, hall⟩
      exact ⟨⟨hs, hall g (Or.inl rfl)⟩, fun g' hg' => hall g' (Or.inr hg')⟩

theorem foldl_fun_mul {I : Type} (l : List (I → ℂ)) (a : I → ℂ) (i : I) :
    (l.foldl (fun f g i => f i * g i) a) i = l.foldl (fun x (g : I → ℂ) => x * g i) (a i) := by
  induction l generalizing a with
  | nil => rfl
  | cons g gs ih => simp only [List.foldl]; rw [ih]

theorem foldl_fun_or {I : Type} (l : List (I → Bool)) (a : I → Bool) (i : I) :
    (l.foldl (fun f g i => f i || g i) a) i = l.foldl (fun x (g : I → Bool) => x || g i) (a i) := by
  induction l generalizing a with
  | nil => rfl
  | cons g gs ih => simp only [List.foldl]; rw [ih]

theorem foldl_or_eq_any (l : List Bool) (b : Bool) :
    l.foldl (fun x y => x || y) b = (b || l.any id) := by
  induction l generalizing b with
  | nil => simp
  | cons x xs ih => simp [List.foldl, List.any, ih, Bool.or_assoc]

theorem foldl_mul_eq_prod (l : List ℂ) (b : ℂ) :
    l.foldl (fun x y => x * y) b = b * l.prod := by
  induction l generalizing b with
  | nil => simp
  | cons x xs ih => simp [List.foldl, ih, mul_assoc]

theorem any_eq_foldl (l : List Bool) : l.any id = l.foldl (fun x y => x || y) false := by
  rw [foldl_or_eq_any]; simp

theorem prod_eq_foldl_one (l : List ℂ) : l.prod = l.foldl (fun x y => x * y) 1 := by
  rw [foldl_mul_eq_prod, one_mul]

/-! ## Claim theorems: C8 and C4 -/

/-- C8: `reverse_bl` applied twice is the identity, both on 2-tuples
`(i, j)` and on 3-tuples `(i, j, pol)` with a polarization string. -/
theorem C8_reverse_bl_involutive (bl : Bl) : reverse_bl (reverse_bl bl) = bl := by
  cases bl with
  | pair i j => rfl
  | trip i j pol => simp [reverse_bl, conj_pol, comply_vispol]

/-- C4: for every non-empty list of gain dictionaries, `merge_gains` with
`merge_shared=True` returns a dictionary whose key set is exactly the
intersection of all input key sets and whose value at each shared key is the
elementwise product of the input values there; for boolean flag
dictionaries the merged value is instead the elementwise logical OR over
the same intersection of keys. -/
theorem C4_merge_gains_spec {K I : Type} [DecidableEq K]
    (gains : List (GDict K (I → ℂ))) (hne : gains ≠ [])
    (flags : List (GDict K (I → Bool))) (hfne : flags ≠ []) :
    (∀ x : K, x ∈ (merge_gains gains).keys ↔ ∀ g ∈ gains, x ∈ g.keys)
    ∧ (∀ k ∈ (merge_gains gains).keys, ∀ i : I,
        (merge_gains gains).val k i = (gains.map (fun g => g.val k i)).prod)
    ∧ (∀ x : K, x ∈ (merge_flags flags).keys ↔ ∀ g ∈ flags, x ∈ g.keys)
    ∧ (∀ k ∈ (merge_flags flags).keys, ∀ i : I,
        (merge_flags flags).val k i = (flags.map (fun g => g.val k i)).any id) := by
  obtain ⟨g0, gs, rfl⟩ := List.exists_cons_of_ne_nil hne
  obtain ⟨f0, fs, rfl⟩ := List.exists_cons_of_ne_nil hfne
  have hkeysg : ∀ x : K, x ∈ (merge_gains (g0 :: gs)).keys ↔ ∀ g ∈ g0 :: gs, x ∈ g.keys := by
    intro x
    show x ∈ merge_gains_shared_keys (g0 :: gs) ↔ _
    rw [merge_gains_shared_keys_cons, mem_foldl_inter]
    constructor
    · rintro ⟨h0, hrest⟩ g hg
      rcases List.mem_cons.mp hg with h | h
      · exact h ▸ h0
      · exact hrest g h
    · intro hall
      exact ⟨hall g0 (List.mem_cons_self _ _), fun g hg => hall g (List.mem_cons_of_mem _ hg)⟩
  have hkeysf : ∀ x : K, x ∈ (merge_flags (f0 :: fs)).keys ↔ ∀ g ∈ f0 :: fs, x ∈ g.keys := by
    intro x
    show x ∈ merge_gains_shared_keys (f0 :: fs) ↔ _
    rw [merge_gains_shared_keys_cons, mem_foldl_inter]
    constructor
    · rintro ⟨h0, hrest⟩ g hg
      rcases List.mem_cons.mp hg with h | h
      · exact h ▸ h0
      · exact hrest g h
    · intro hall
      exact ⟨hall f0 (List.mem_cons_self _ _), fun g hg => hall g (List.mem_cons_of_mem _ hg)⟩
  refine ⟨hkeysg, ?_, hkeysf, ?_⟩
  · intro k hk i
    have hmem : ∀ g ∈ g0 :: gs, k ∈ g.keys := (hkeysg k).mp hk
    have hget : (g0 :: gs).map (fun g => g.get k (fun _ => 1)) = (g0 :: gs).map (fun g => g.val k) := by
      apply List.map_congr_left
      intro g hg
      simp [GDict.get, hmem g hg]
    show ((g0 :: gs).map (fun g => g.get k (fun _ => 1))).foldl (fun a b i => a i * b i) (fun _ => 1) i = _
    rw [hget, foldl_fun_mul, List.foldl_map, prod_eq_foldl_one, List.foldl_map]
  · intro k hk i
    have hmem : ∀ g ∈ f0 :: fs, k ∈ g.keys := (hkeysf k).mp hk
    have hget : (f0 :: fs).map (fun g => g.get k (fun _ => true)) = (f0 :: fs).map (fun g => g.val k) := by
      apply List.map_congr_left
      intro g hg
      simp [GDict.get, hmem g hg]
    show ((f0 :: fs).map (fun g => g.get k (fun _ => true))).foldl (fun a b i => a i || b i) (fun _ => false) i = _
    rw [hget, foldl_fun_or, List.foldl_map, any_eq_foldl, List.foldl_map]

/-- Witness for C4 at a concrete input: two complex gain dictionaries with
key sets `{0,1}` and `{1,2}` and two boolean flag dictionaries. -/
theorem C4_merge_gains_spec_witness :
    (([⟨{0, 1}, fun _ _ => 3⟩, ⟨{1, 2}, fun _ _ => 2⟩] : List (GDict ℕ (Fin 1 → ℂ))) ≠ [])
    ∧ ((∀ x : ℕ, x ∈ (merge_gains ([⟨{0, 1}, fun _ _ => 3⟩, ⟨{1, 2}, fun _ _ => 2⟩] : List (GDict ℕ (Fin 1 → ℂ)))).keys
          ↔ ∀ g ∈ ([⟨{0, 1}, fun _ _ => 3⟩, ⟨{1, 2}, fun _ _ => 2⟩] : List (GDict ℕ (Fin 1 → ℂ))), x ∈ g.keys)
      ∧ (∀ k ∈ (merge_gains ([⟨{0, 1}, fun _ _ => 3⟩, ⟨{1, 2}, fun _ _ => 2⟩] : List (GDict ℕ (Fin 1 → ℂ)))).keys, ∀ i : Fin 1,
          (merge_gains ([⟨{0, 1}, fun _ _ => 3⟩, ⟨{1, 2}, fun _ _ => 2⟩] : List (GDict ℕ (Fin 1 → ℂ)))).val k i
            = (([⟨{0, 1}, fun _ _ => 3⟩, ⟨{1, 2}, fun _ _ => 2⟩] : List (GDict ℕ (Fin 1 → ℂ))).map (fun g => g.val k i)).prod)
      ∧ (∀ x : ℕ, x ∈ (merge_flags ([⟨{0, 1}, fun _ _ => true⟩, ⟨{1, 2}, fun _ _ => false⟩] : List (GDict ℕ (Fin 1 → Bool)))).keys
          ↔ ∀ g ∈ ([⟨{0, 1}, fun _ _ => true⟩, ⟨{1, 2}, fun _ _ => false⟩] : List (GDict ℕ (Fin 1 → Bool))), x ∈ g.keys)
      ∧ (∀ k ∈ (merge_flags ([⟨{0, 1}, fun _ _ => true⟩, ⟨{1, 2}, fun _ _ => false⟩] : List (GDict ℕ (Fin 1 → Bool)))).keys, ∀ i : Fin 1,
          (merge_flags ([⟨{0, 1}, fun _ _ => true⟩, ⟨{1, 2}, fun _ _ => false⟩] : List (GDict ℕ (Fin 1 → Bool)))).val k i
            = (([⟨{0, 1}, fun _ _ => true⟩, ⟨{1, 2}, fun _ _ => false⟩] : List (GDict ℕ (Fin 1 → Bool))).map (fun g => g.val k i)).any id)) :=
  ⟨by simp,
   C4_merge_gains_spec ([⟨{0, 1}, fun _ _ => 3⟩, ⟨{1, 2}, fun _ _ => 2⟩] : List (GDict ℕ (Fin 1 → ℂ))) (by simp)
     ([⟨{0, 1}, fun _ _ => true⟩, ⟨{1, 2}, fun _ _ => false⟩] : List (GDict ℕ (Fin 1 → Bool))) (by simp)⟩

/-! ## Helper lemmas for the NaN/Inf scrubbing -/

theorem fval_isnan_fin {A : Type} (x : A) : (FVal.fin x).isnan = false := rfl

theorem fval_cases {A : Type} (v : FVal A) :
    (∃ x, v = .fin x) ∨ v = .nan ∨ v = .inf := by
  cases v with
  | fin x => exact Or.inl ⟨x, rfl⟩
  | nan => exact Or.inr (Or.inl rfl)
  | inf => exact Or.inr (Or.inr rfl)

/-- Characterization of the array branch of `fill_dict_nans` with both
fills set to `0.0`: non-finite entries become finite zeros with zero
weight, finite entries and their weights are untouched, and the scrubbed
array is everywhere finite. -/
theorem fill_array_nans_zero_spec {A I : Type} [Zero A]
    (data : I → FVal A) (wgts : I → A) (i : I) :
    (fill_array_nans data wgts (some 0) (some 0)).1 i
      = (if (data i).isnan || (data i).isinf then FVal.fin 0 else data i)
    ∧ (fill_array_nans data wgts (some 0) (some 0)).2 i
      = (if (data i).isnan || (data i).isinf then 0 else wgts i)
    ∧ ((fill_array_nans data wgts (some 0) (some 0)).1 i).isfinite = true := by
  cases h : data i with
  | fin x => simp [fill_array_nans, h, FVal.isnan, FVal.isinf, FVal.isfinite]
  | nan => simp [fill_array_nans, h, FVal.isnan, FVal.isinf, FVal.isfinite]
  | inf => simp [fill_array_nans, h, FVal.isnan, FVal.isinf, FVal.isfinite]

/-! ## Claim theorems: C3 and C9 -/

/-- C3: in every calibration solver, every NaN or Inf entry of the derived
observed quantity (the log-amplitude ratio for `amp_logcal` /
`abs_amp_logcal`, the angle of the data/model ratio for `phs_logcal` /
`TT_phs_logcal`, the data/model ratio and the per-baseline delay for
`delay_lincal` / `delay_slope_lincal`) is replaced with 0 and its weight
is zeroed before the least-squares solve, and the data handed to the
linear solver is everywhere finite. -/
theorem C3_nonfinite_scrubbed_before_solve {G A K I T : Type}
    [DivisionRing G] [DecidableEq G] [Zero A] [Add A] [Mul A]
    (logabs angle : G → A) (model data : K → I → CVal G) (wgts : K → I → A)
    (dly offset : T → FVal A) (rwgts : T → A)
    (peakFreq : T → A) (binShift : T → FVal A) (dtau : A) :
    -- `fill_dict_nans(ydata, wgts, nan_fill=0.0, inf_fill=0.0)` semantics
    (∀ (d : K → I → FVal A) (w : K → I → A) (k : K) (i : I),
      (fill_dict_nans d w (some 0) (some 0)).1 k i
        = (if (d k i).isnan || (d k i).isinf then FVal.fin 0 else d k i)
      ∧ (fill_dict_nans d w (some 0) (some 0)).2 k i
        = (if (d k i).isnan || (d k i).isinf then 0 else w k i)
      ∧ ((fill_dict_nans d w (some 0) (some 0)).1 k i).isfinite = true)
    -- amp_logcal: ln|data/model| scrubbed, solver data finite
    ∧ (∀ (k : K) (i : I),
      ((amp_logcal_prep logabs model data wgts).ydata k i).isfinite = true
      ∧ (amp_logcal_prep logabs model data wgts).wgts k i
        = (if (clogabs logabs (cdiv (data k i) (model k i))).isnan
            || (clogabs logabs (cdiv (data k i) (model k i))).isinf
           then 0 else wgts k i))
    -- phs_logcal: angle(data/model) scrubbed, solver data finite
    ∧ (∀ (k : K) (i : I),
      ((phs_logcal_prep angle model data wgts).ydata k i).isfinite = true
      ∧ (phs_logcal_prep angle model data wgts).wgts k i
        = (if (cangle angle (cdiv (data k i) (model k i))).isnan
            || (cangle angle (cdiv (data k i) (model k i))).isinf
           then 0 else wgts k i))
    -- abs_amp_logcal
    ∧ (∀ (k : K) (i : I),
      ((abs_amp_logcal_prep logabs model data wgts).ydata k i).isfinite = true
      ∧ (abs_amp_logcal_prep logabs model data wgts).wgts k i
        = (if (clogabs logabs (cdiv (data k i) (model k i))).isnan
            || (clogabs logabs (cdiv (data k i) (model k i))).isinf
           then 0 else wgts k i))
    -- TT_phs_logcal
    ∧ (∀ (k : K) (i : I),
      ((TT_phs_logcal_prep angle model data wgts).ydata k i).isfinite = true
      ∧ (TT_phs_logcal_prep angle model data wgts).wgts k i
        = (if (cangle angle (cdiv (data k i) (model k i))).isnan
            || (cangle angle (cdiv (data k i) (model k i))).isinf
           then 0 else wgts k i))
    -- delay_lincal / delay_slope_lincal: the ratio fed to fft_dly is
    -- scrubbed to finite values, with the weights zeroed alongside
    ∧ (∀ (k : K) (i : I),
      ((delay_lincal_ratio_scrub model data wgts).ratio k i).isfinite = true
      ∧ (delay_lincal_ratio_scrub model data wgts).wgts k i
        = (if (cdiv (data k i) (model k i)).isnan || (cdiv (data k i) (model k i)).isinf
           then 0 else wgts k i)
      ∧ ((delay_slope_lincal_ratio_scrub model data wgts).ratio k i).isfinite = true
      ∧ (delay_slope_lincal_ratio_scrub model data wgts).wgts k i
        = (if (cdiv (data k i) (model k i)).isnan || (cdiv (data k i) (model k i)).isinf
           then 0 else wgts k i))
    -- the per-baseline delay: fft_dly returns finite delays, a NaN delay
    -- would be zeroed with zero weight, and the scrubbed delay is never NaN
    ∧ (∀ t : T,
      (fft_dly_dlys peakFreq binShift dtau t).isfinite = true
      ∧ (delay_lincal_dly_scrub dly offset rwgts).1 t
        = (if (dly t).isnan then FVal.fin 0 else dly t)
      ∧ (delay_lincal_dly_scrub dly offset rwgts).2.2 t
        = (if (dly t).isnan then 0 else rwgts t)
      ∧ ((delay_lincal_dly_scrub dly offset rwgts).1 t).isnan = false
      ∧ ((delay_lincal_dly_scrub (fft_dly_dlys peakFreq binShift dtau) offset rwgts).1 t).isfinite
          = true) := by
  have hfill : ∀ (d : K → I → FVal A) (w : K → I → A) (k : K) (i : I),
      (fill_dict_nans d w (some 0) (some 0)).1 k i
        = (if (d k i).isnan || (d k i).isinf then FVal.fin 0 else d k i)
      ∧ (fill_dict_nans d w (some 0) (some 0)).2 k i
        = (if (d k i).isnan || (d k i).isinf then 0 else w k i)
      ∧ ((fill_dict_nans d w (some 0) (some 0)).1 k i).isfinite = true := by
    intro d w k i
    exact fill_array_nans_zero_spec (d k) (w k) i
  refine ⟨hfill, ?_, ?_, ?_, ?_, ?_, ?_⟩
  · intro k i
    obtain ⟨h1, h2, h3⟩ := hfill
      (fun k i => clogabs logabs (cdiv (data k i) (model k i))) wgts k i
    exact ⟨h3, h2⟩
  · intro k i
    obtain ⟨h1, h2, h3⟩ := hfill
      (fun k i => cangle angle (cdiv (data k i) (model k i))) wgts k i
    exact ⟨h3, h2⟩
  · intro k i
    obtain ⟨h1, h2, h3⟩ := hfill
      (fun k i => clogabs logabs (cdiv (data k i) (model k i))) wgts k i
    exact ⟨h3, h2⟩
  · intro k i
    obtain ⟨h1, h2, h3⟩ := hfill
      (fun k i => cangle angle (cdiv (data k i) (model k i))) wgts k i
    exact ⟨h3, h2⟩
  · intro k i
    cases h : cdiv (data k i) (model k i) with
    | fin z =>
      refine ⟨?_, ?_, ?_, ?_⟩ <;>
        simp [delay_lincal_ratio_scrub, delay_slope_lincal_ratio_scrub, h,
          CVal.isnan, CVal.isinf, CVal.isfinite]
    | nan =>
      refine ⟨?_, ?_, ?_, ?_⟩ <;>
        simp [delay_lincal_ratio_scrub, delay_slope_lincal_ratio_scrub, h,
          CVal.isnan, CVal.isinf, CVal.isfinite]
    | inf =>
      refine ⟨?_, ?_, ?_, ?_⟩ <;>
        simp [delay_lincal_ratio_scrub, delay_slope_lincal_ratio_scrub, h,
          CVal.isnan, CVal.isinf, CVal.isfinite]
  · intro t
    refine ⟨rfl, rfl, rfl, ?_, ?_⟩
    · cases h : dly t with
      | fin x => simp [delay_lincal_dly_scrub, h, FVal.isnan]
      | nan => simp [delay_lincal_dly_scrub, h, FVal.isnan]
      | inf => simp [delay_lincal_dly_scrub, h, FVal.isnan]
    · simp [delay_lincal_dly_scrub, fft_dly_dlys, FVal.isnan, FVal.isfinite]

/-- C9: when the caller supplies a weight container, `amp_logcal`,
`phs_logcal`, `abs_amp_logcal`, `TT_phs_logcal`, `delay_lincal` and
`delay_slope_lincal` write the caller's weight arrays in place, zeroing the
weight exactly at the samples where the derived observed quantity
(log-amplitude ratio, angle of the data/model ratio, or the data/model
ratio itself for the delay solvers) is NaN or Inf, and leave every sample
with a finite derived quantity untouched; the model and data containers
come back unchanged. -/
theorem C9_solvers_mutate_wgts_only {G A K I : Type}
    [DivisionRing G] [DecidableEq G] [Zero A]
    (logabs angle : G → A) (model data : K → I → CVal G) (wgts : K → I → A) :
    -- model and data containers are returned unchanged by all six solvers
    ((amp_logcal_prep logabs model data wgts).model = model
      ∧ (amp_logcal_prep logabs model data wgts).data = data
      ∧ (phs_logcal_prep angle model data wgts).model = model
      ∧ (phs_logcal_prep angle model data wgts).data = data
      ∧ (abs_amp_logcal_prep logabs model data wgts).model = model
      ∧ (abs_amp_logcal_prep logabs model data wgts).data = data
      ∧ (TT_phs_logcal_prep angle model data wgts).model = model
      ∧ (TT_phs_logcal_prep angle model data wgts).data = data
      ∧ (delay_lincal_ratio_scrub model data wgts).model = model
      ∧ (delay_lincal_ratio_scrub model data wgts).data = data
      ∧ (delay_slope_lincal_ratio_scrub model data wgts).model = model
      ∧ (delay_slope_lincal_ratio_scrub model data wgts).data = data)
    -- the caller's weights are zeroed exactly at the non-finite samples
    ∧ (∀ (k : K) (i : I),
      (amp_logcal_prep logabs model data wgts).wgts k i
        = (if (clogabs logabs (cdiv (data k i) (model k i))).isnan
            || (clogabs logabs (cdiv (data k i) (model k i))).isinf
           then 0 else wgts k i)
      ∧ (phs_logcal_prep angle model data wgts).wgts k i
        = (if (cangle angle (cdiv (data k i) (model k i))).isnan
            || (cangle angle (cdiv (data k i) (model k i))).isinf
           then 0 else wgts k i)
      ∧ (abs_amp_logcal_prep logabs model data wgts).wgts k i
        = (if (clogabs logabs (cdiv (data k i) (model k i))).isnan
            || (clogabs logabs (cdiv (data k i) (model k i))).isinf
           then 0 else wgts k i)
      ∧ (TT_phs_logcal_prep angle model data wgts).wgts k i
        = (if (cangle angle (cdiv (data k i) (model k i))).isnan
            || (cangle angle (cdiv (data k i) (model k i))).isinf
           then 0 else wgts k i)
      ∧ (delay_lincal_ratio_scrub model data wgts).wgts k i
        = (if (cdiv (data k i) (model k i)).isnan || (cdiv (data k i) (model k i)).isinf
           then 0 else wgts k i)
      ∧ (delay_slope_lincal_ratio_scrub model data wgts).wgts k i
        = (if (cdiv (data k i) (model k i)).isnan || (cdiv (data k i) (model k i)).isinf
           then 0 else wgts k i)) := by
  refine ⟨⟨rfl, rfl, rfl, rfl, rfl, rfl, rfl, rfl, rfl, rfl, rfl, rfl⟩, ?_⟩
  intro k i
  have hlog := (fill_array_nans_zero_spec
    (fun i => clogabs logabs (cdiv (data k i) (model k i))) (wgts k) i).2.1
  have hang := (fill_array_nans_zero_spec
    (fun i => cangle angle (cdiv (data k i) (model k i))) (wgts k) i).2.1
  have hratio : ∀ w0 : K → I → A,
      (delay_lincal_ratio_scrub model data w0).wgts k i
        = (if (cdiv (data k i) (model k i)).isnan || (cdiv (data k i) (model k i)).isinf
           then 0 else w0 k i) := by
    intro w0
    cases h : cdiv (data k i) (model k i) with
    | fin z => simp [delay_lincal_ratio_scrub, h, CVal.isnan, CVal.isinf]
    | nan => simp [delay_lincal_ratio_scrub, h, CVal.isnan, CVal.isinf]
    | inf => simp [delay_lincal_ratio_scrub, h, CVal.isnan, CVal.isinf]
  have hratio2 : ∀ w0 : K → I → A,
      (delay_slope_lincal_ratio_scrub model data w0).wgts k i
        = (if (cdiv (data k i) (model k i)).isnan || (cdiv (data k i) (model k i)).isinf
           then 0 else w0 k i) := by
    intro w0
    cases h : cdiv (data k i) (model k i) with
    | fin z => simp [delay_slope_lincal_ratio_scrub, h, CVal.isnan, CVal.isinf]
    | nan => simp [delay_slope_lincal_ratio_scrub, h, CVal.isnan, CVal.isinf]
    | inf => simp [delay_slope_lincal_ratio_scrub, h, CVal.isnan, CVal.isinf]
  exact ⟨hlog, hang, hlog, hang, hratio wgts, hratio2 wgts⟩

/-! ## Claim theorems: C7 -/

/-- C7: a completely flagged bin never aborts a peak-finding solve: an
output pixel of `dft_phase_slope_solver` whose input column is entirely
NaN gets slopes exactly 0.0 (its `np.zeros_like` entries are
never overwritten, whatever the `brute`/`minimize` peak search would
return), and in `global_phase_slope_logcal` a per-equation data value
whose frequency-median is NaN is set to 0 with weight 0. -/
theorem C7_fully_flagged_bins_zeroed {G A E T J : Type} [Zero A] {n : ℕ}
    (peak : List (A × A × CVal G) → A × A) (xs ys : Fin n → A)
    (data : Fin n → J → CVal G) (flags : Fin n → J → Bool) (j : J)
    (hall : ∀ r : Fin n, (data r j).isnan = true)
    (ls_data : E → T → FVal A) (ls_wgts : E → T → A) (e : E) (t : T)
    (hnan : (ls_data e t).isnan = true) :
    (dft_phase_slope_solver peak xs ys data flags).1 j = 0
    ∧ (dft_phase_slope_solver peak xs ys data flags).2 j = 0
    ∧ (global_phase_slope_nan_scrub ls_data ls_wgts).1 e t = FVal.fin 0
    ∧ (global_phase_slope_nan_scrub ls_data ls_wgts).2 e t = 0 := by
  have hguard : ((List.finRange n).all (fun r => (data r j).isnan)) = true := by
    rw [List.all_eq_true]
    intro r _
    exact hall r
  refine ⟨?_, ?_, ?_, ?_⟩
  · simp only [dft_phase_slope_solver]
    rw [hguard]
    rfl
  · simp only [dft_phase_slope_solver]
    rw [hguard]
    rfl
  · simp [global_phase_slope_nan_scrub, hnan]
  · simp [global_phase_slope_nan_scrub, hnan]

/-- Witness for C7: a two-antenna column that is entirely NaN, with a peak
oracle that would return nonzero slopes if it were consulted. -/
theorem C7_fully_flagged_bins_zeroed_witness :
    (∀ r : Fin 2, (((fun _ _ => CVal.nan) : Fin 2 → Fin 1 → CVal ℚ) r 0).isnan = true)
    ∧ ((FVal.nan : FVal ℚ).isnan = true)
    ∧ ((dft_phase_slope_solver (fun _ => ((5 : ℚ), (7 : ℚ))) (fun _ => 0) (fun _ => 0)
          ((fun _ _ => CVal.nan) : Fin 2 → Fin 1 → CVal ℚ) (fun _ _ => false)).1 0 = 0
      ∧ (dft_phase_slope_solver (fun _ => ((5 : ℚ), (7 : ℚ))) (fun _ => 0) (fun _ => 0)
          ((fun _ _ => CVal.nan) : Fin 2 → Fin 1 → CVal ℚ) (fun _ _ => false)).2 0 = 0
      ∧ (global_phase_slope_nan_scrub ((fun _ _ => FVal.nan) : Fin 1 → Fin 1 → FVal ℚ)
          (fun _ _ => 3)).1 0 0 = FVal.fin 0
      ∧ (global_phase_slope_nan_scrub ((fun _ _ => FVal.nan) : Fin 1 → Fin 1 → FVal ℚ)
          (fun _ _ => 3)).2 0 0 = 0) :=
  ⟨fun _ => rfl, rfl,
   C7_fully_flagged_bins_zeroed (fun _ => ((5 : ℚ), (7 : ℚ))) (fun _ => 0) (fun _ => 0)
     ((fun _ _ => CVal.nan) : Fin 2 → Fin 1 → CVal ℚ) (fun _ _ => false) 0 (fun _ => rfl)
     ((fun _ _ => FVal.nan) : Fin 1 → Fin 1 → FVal ℚ) (fun _ _ => 3) 0 0 rfl⟩

/-! ## Claim theorems: C6 -/

/-- C6: `global_phase_slope_logcal` raises immediately, before any
solving, when the solver string is unrecognized or when
`2 * edge_cut >= Nfreqs - 1`; and with `solver='dft'` it raises
NotImplementedError whenever any data polarization is a
cross-polarization.  (A valid `linfit` call passes all checks.) -/
theorem C6_global_phase_slope_logcal_raises
    (solver : String) (nfreqs edge_cut : ℕ) (pols : List VisPol) :
    (solver ∉ PHASE_SLOPE_SOLVERS →
      global_phase_slope_logcal_checks solver nfreqs edge_cut pols = .error .assertSolver)
    ∧ (solver ∈ PHASE_SLOPE_SOLVERS → (nfreqs : ℤ) - 1 ≤ 2 * (edge_cut : ℤ) →
      global_phase_slope_logcal_checks solver nfreqs edge_cut pols = .error .assertEdgeCut)
    ∧ (solver = "dft" → 2 * (edge_cut : ℤ) < (nfreqs : ℤ) - 1 →
      (∃ pol ∈ pols, (split_pol pol).1 ≠ (split_pol pol).2) →
      global_phase_slope_logcal_checks solver nfreqs edge_cut pols = .error .notImplementedCrossPol)
    ∧ (solver = "linfit" → 2 * (edge_cut : ℤ) < (nfreqs : ℤ) - 1 →
      global_phase_slope_logcal_checks solver nfreqs edge_cut pols = .ok ()) := by
  refine ⟨?_, ?_, ?_, ?_⟩
  · intro hs
    simp [global_phase_slope_logcal_checks, hs]
  · intro hs hec
    have : ¬ (2 * (edge_cut : ℤ) < (nfreqs : ℤ) - 1) := not_lt.mpr hec
    simp [global_phase_slope_logcal_checks, hs, this]
  · intro hs hec ⟨pol, hmem, hcross⟩
    subst hs
    have hall : ¬ (pols.all (fun pol => (split_pol pol).1 = (split_pol pol).2) = true) := by
      rw [List.all_eq_true]
      push_neg
      exact ⟨pol, hmem, by simpa using hcross⟩
    have hin : "dft" ∈ PHASE_SLOPE_SOLVERS := by simp [PHASE_SLOPE_SOLVERS]
    simp [global_phase_slope_logcal_checks, hin, hec, hall]
  · intro hs hec
    subst hs
    have hin : "linfit" ∈ PHASE_SLOPE_SOLVERS := by simp [PHASE_SLOPE_SOLVERS]
    simp [global_phase_slope_logcal_checks, hin, hec]

/-- Witness for C6: an unrecognized solver, an oversized `edge_cut`, a
cross-polarized `dft` call, and a passing `linfit` call, each concrete. -/
theorem C6_global_phase_slope_logcal_raises_witness :
    global_phase_slope_logcal_checks "cubic" 16 0 [] = .error .assertSolver
    ∧ global_phase_slope_logcal_checks "linfit" 16 8 [] = .error .assertEdgeCut
    ∧ global_phase_slope_logcal_checks "dft" 16 0 [⟨AntPol.je, AntPol.jn⟩]
        = .error .notImplementedCrossPol
    ∧ global_phase_slope_logcal_checks "linfit" 16 0 [] = .ok () :=
  ⟨(C6_global_phase_slope_logcal_raises "cubic" 16 0 []).1 (by decide),
   (C6_global_phase_slope_logcal_raises "linfit" 16 8 []).2.1 (by decide) (by decide),
   (C6_global_phase_slope_logcal_raises "dft" 16 0 [⟨AntPol.je, AntPol.jn⟩]).2.2.1 rfl
     (by decide) ⟨⟨AntPol.je, AntPol.jn⟩, by simp, by decide⟩,
   (C6_global_phase_slope_logcal_raises "linfit" 16 0 []).2.2.2 rfl (by decide)⟩

/-! ## Claim theorems: C5 -/

/-- C5: each iterative phase stage of `post_redcal_abscal` executes its
body at most `phs_max_iter` times; it exits as soon as the convergence
criterion falls below `phs_conv_crit` (at the first iteration `k` whose
criterion does, after exactly `k + 1` body executions); and when the
criterion is never met, no exception is raised — the loop completes all
`phs_max_iter` iterations and still returns the accumulated delta-gain
state. -/
theorem C5_phase_loop_terminates {St B : Type} [LT B] [DecidableRel (α := B) (· < ·)]
    (advance : St → St × B) (c : B) (n : ℕ) (s : St) :
    ((post_redcal_phase_loop advance c n s).2 ≤ n)
    ∧ (∀ k0 : ℕ, k0 < n →
        (∀ k : ℕ, k < k0 → ¬ (advance (advance_iterate advance k s)).2 < c) →
        (advance (advance_iterate advance k0 s)).2 < c →
        post_redcal_phase_loop advance c n s = (advance_iterate advance (k0 + 1) s, k0 + 1))
    ∧ ((∀ k : ℕ, k < n → ¬ (advance (advance_iterate advance k s)).2 < c) →
        post_redcal_phase_loop advance c n s = (advance_iterate advance n s, n)) := by
  refine ⟨?_, ?_, ?_⟩
  · induction n generalizing s with
    | zero => simp [post_redcal_phase_loop]
    | succ n ih =>
      by_cases h : (advance s).2 < c
      · simp [post_redcal_phase_loop, h]
      · simp only [post_redcal_phase_loop, if_neg h]
        exact Nat.succ_le_succ (ih (advance s).1)
  · induction n generalizing s with
    | zero =>
      intro k0 hk0
      exact absurd hk0 (Nat.not_lt_zero k0)
    | succ n ih =>
      intro k0 hk0 hbefore hconv
      cases k0 with
      | zero =>
        have h0 : (advance s).2 < c := hconv
        simp [post_redcal_phase_loop, h0, advance_iterate]
      | succ k0 =>
        have h0 : ¬ (advance s).2 < c := hbefore 0 (Nat.succ_pos k0)
        simp only [post_redcal_phase_loop, if_neg h0]
        have hrec := ih (advance s).1 k0 (Nat.lt_of_succ_lt_succ hk0)
          (fun k hk => hbefore (k + 1) (Nat.succ_lt_succ hk))
          hconv
        rw [hrec]
        rfl
  · induction n generalizing s with
    | zero => simp [post_redcal_phase_loop, advance_iterate]
    | succ n ih =>
      intro hnever
      have h0 : ¬ (advance s).2 < c := hnever 0 (Nat.succ_pos n)
      simp only [post_redcal_phase_loop, if_neg h0]
      have hrec := ih (advance s).1 (fun k hk => hnever (k + 1) (Nat.succ_lt_succ hk))
      rw [hrec]
      rfl

/-- Witness for C5: a criterion that never converges (constant 1 against
threshold 0) runs all 3 iterations and returns the 3-step state, and a
criterion that converges at once (constant 0 against threshold 1) exits
after a single iteration. -/
theorem C5_phase_loop_terminates_witness :
    ((post_redcal_phase_loop (fun s : ℕ => (s + 1, (1 : ℚ))) 0 3 0).2 ≤ 3)
    ∧ ((0 : ℕ) < 2)
    ∧ post_redcal_phase_loop (fun s : ℕ => (s + 1, (1 : ℚ))) 0 3 0 = (3, 3)
    ∧ post_redcal_phase_loop (fun s : ℕ => (s + 1, (0 : ℚ))) 1 2 0 = (1, 1) :=
  ⟨(C5_phase_loop_terminates (fun s : ℕ => (s + 1, (1 : ℚ))) 0 3 0).1,
   by decide,
   (C5_phase_loop_terminates (fun s : ℕ => (s + 1, (1 : ℚ))) 0 3 0).2.2
     (fun k _ => by simp),
   (C5_phase_loop_terminates (fun s : ℕ => (s + 1, (0 : ℚ))) 1 2 0).2.1 0 (by decide)
     (fun k hk => absurd hk (Nat.not_lt_zero k))
     (by norm_num)⟩

/-! ## Claim theorems: C10 -/

theorem cut_bls_step_eq_noguard {B P V : Type} [LinearOrder B] (norm : P → B)
    (bls : List (Bl × P)) (mn mx : B) (kv : Bl × V) :
    cut_bls_step norm bls mn mx kv = cut_bls_step_noguard norm bls mn mx kv := by
  cases h : bls.lookup kv.1 with
  | none => simp [cut_bls_step, cut_bls_step_noguard, h]
  | some p => simp [cut_bls_step, cut_bls_step_noguard, h]

theorem cut_bls_fold_error {V : Type}
    (step : (Bl × V) → Except CutBlsErr (Option (Bl × V)))
    (hsh : ∀ kv, step kv = .error .keyError ∨ ∃ o, step kv = .ok o) :
    ∀ (dc : List (Bl × V)) (acc : List (Bl × V)),
      (∃ kv ∈ dc, step kv = .error .keyError) →
      dc.foldlM (fun acc kv => do
        match ← step kv with
        | some kv' => pure (acc ++ [kv'])
        | none => pure acc) acc = (.error .keyError : Except CutBlsErr (List (Bl × V))) := by
  intro dc
  induction dc with
  | nil =>
    intro acc hmiss
    obtain ⟨kv, hmem, _⟩ := hmiss
    exact absurd hmem (List.not_mem_nil kv)
  | cons kv rest ih =>
    intro acc hmiss
    rw [List.foldlM_cons]
    rcases hsh kv with herr | ⟨o, hok⟩
    · rw [herr]
      rfl
    · rw [hok]
      obtain ⟨kv', hmem', herr'⟩ := hmiss
      have hrest : ∃ kv'' ∈ rest, step kv'' = .error .keyError := by
        rcases List.mem_cons.mp hmem' with heq | hmem''
        · subst heq
          rw [hok] at herr'
          exact absurd herr' (by simp)
        · exact ⟨kv', hmem'', herr'⟩
      cases o with
      | some kv0 => exact ih (acc ++ [kv0]) hrest
      | none => exact ih acc hrest

theorem cut_bls_step_shape {B P V : Type} [LinearOrder B] (norm : P → B)
    (bls : List (Bl × P)) (mn mx : B) (kv : Bl × V) :
    cut_bls_step norm bls mn mx kv = .error .keyError
      ∨ ∃ o, cut_bls_step norm bls mn mx kv = .ok o := by
  cases h : bls.lookup kv.1 with
  | none => exact Or.inl (by simp [cut_bls_step, h])
  | some p =>
    right
    by_cases hcut : norm p > mx ∨ norm p < mn
    · exact ⟨none, by simp [cut_bls_step, h, hcut]⟩
    · exact ⟨some kv, by simp [cut_bls_step, h, hcut]⟩

/-- C10: in `cut_bls` the baseline length `bls[k]` is evaluated before the
`k not in bls` membership guard, so whenever the datacontainer holds a key
absent from `bls` the function raises `KeyError` instead of skipping the
key; and the guard is unreachable for missing keys — `cut_bls` behaves
identically to the variant with the guard deleted. -/
theorem C10_cut_bls_keyerror {B P V : Type} [LinearOrder B] (norm : P → B)
    (datacontainer : List (Bl × V)) (bls : List (Bl × P)) (mn mx : B) :
    ((∃ kv ∈ datacontainer, bls.lookup kv.1 = none) →
      cut_bls norm datacontainer bls mn mx = .error .keyError)
    ∧ cut_bls norm datacontainer bls mn mx = cut_bls_noguard norm datacontainer bls mn mx := by
  constructor
  · intro hmiss
    obtain ⟨kv, hmem, hnone⟩ := hmiss
    have hkerr : cut_bls_step norm bls mn mx kv = (.error .keyError : Except CutBlsErr (Option (Bl × V))) := by
      simp [cut_bls_step, hnone]
    show cut_bls_fold (cut_bls_step norm bls mn mx) datacontainer = .error .keyError
    unfold cut_bls_fold
    rw [cut_bls_fold_error (cut_bls_step norm bls mn mx)
      (cut_bls_step_shape norm bls mn mx) datacontainer [] ⟨kv, hmem, hkerr⟩]
    rfl
  · show cut_bls_fold (cut_bls_step norm bls mn mx) datacontainer
      = cut_bls_fold (cut_bls_step_noguard norm bls mn mx) datacontainer
    congr 1
    funext kv
    exact cut_bls_step_eq_noguard norm bls mn mx kv

/-- Witness for C10: a container holding baseline `(0, 1)` cut against an
empty `bls` dictionary raises `KeyError`. -/
theorem C10_cut_bls_keyerror_witness :
    ((Bl.pair 0 1, (5 : ℕ)) ∈ [(Bl.pair 0 1, (5 : ℕ))]
      ∧ ([] : List (Bl × ℚ)).lookup (Bl.pair 0 1) = none)
    ∧ cut_bls (fun q : ℚ => q) [(Bl.pair 0 1, (5 : ℕ))] ([] : List (Bl × ℚ)) 0 1
        = .error .keyError :=
  ⟨⟨by simp, rfl⟩,
   (C10_cut_bls_keyerror (fun q : ℚ => q) [(Bl.pair 0 1, (5 : ℕ))] ([] : List (Bl × ℚ)) 0 1).1
     ⟨(Bl.pair 0 1, (5 : ℕ)), by simp, rfl⟩⟩

/-! ## Claim theorems: C2 -/

theorem filter_map_singleton_length {X Y : Type} [DecidableEq X] (f : X → Y) (pred : Y → Bool)
    (l : List X) (a : X) (hl : l.Nodup) (ha : a ∈ l)
    (hiff : ∀ x, pred (f x) = decide (x = a)) :
    ((l.map f).filter pred).length = 1 := by
  induction l with
  | nil => cases ha
  | cons b bs ih =>
    have hnd' : bs.Nodup := (List.nodup_cons.mp hl).2
    have hbnotin : b ∉ bs := (List.nodup_cons.mp hl).1
    rcases List.mem_cons.mp ha with rfl | hm
    · have hhead : pred (f a) = true := by
        rw [hiff]
        simp
      have htail : ((bs.map f).filter pred) = [] := by
        rw [List.filter_eq_nil_iff]
        intro y hy
        obtain ⟨x, hx, rfl⟩ := List.mem_map.mp hy
        rw [hiff]
        simp only [decide_eq_true_eq]
        intro hxa
        exact hbnotin (hxa ▸ hx)
      simp [List.filter_cons, hhead, htail]
    · have hhead : pred (f b) = false := by
        rw [hiff]
        simp only [decide_eq_false_iff_not]
        intro h
        exact hbnotin (h ▸ hm)
      simp only [List.map_cons, List.filter_cons, hhead]
      exact ih hnd' hm

/-- C2: for every input and reference antenna, `phs_logcal` and
`delay_lincal` add, for each gain polarization present, exactly one
synthetic equation whose data array is identically zero, whose weight
array is identically one, and whose only unknown is the reference
antenna's phase `phi_{refant}_{p}` (resp. delay `tau_{refant}_{p}`) with
unit coefficient — the equation that pins the otherwise-degenerate
reference unknown to zero and makes the system solvable. -/
theorem C2_refant_synthetic_equation {G A I T : Type}
    [DivisionRing G] [DecidableEq G] [CommRing A] [DecidableEq A]
    (angle : G → A) (keys : List BlKey)
    (model data : BlKey → I → CVal G) (wgts : BlKey → I → A)
    (dly ywgts : BlKey → T → A) (refant : ℤ) (p : AntPol)
    (hp : p ∈ gain_pols keys) :
    ((⟨[((1 : A), Unk.phi refant p)], fun _ => 0, fun _ => 1⟩ : LinEq A I)
        ∈ phs_logcal_system angle keys model data wgts refant)
    ∧ (∀ e ∈ phs_logcal_system angle keys model data wgts refant,
        e.terms = [((1 : A), Unk.phi refant p)] →
          e.ydata = (fun _ => 0) ∧ e.wgts = (fun _ => 1))
    ∧ (((phs_logcal_system angle keys model data wgts refant).filter
        (fun e => decide (e.terms = [((1 : A), Unk.phi refant p)]))).length = 1)
    ∧ ((⟨[((1 : A), Unk.tau refant p)], fun _ => 0, fun _ => 1⟩ : LinEq A T)
        ∈ delay_lincal_tau_system keys dly ywgts refant)
    ∧ (∀ e ∈ delay_lincal_tau_system keys dly ywgts refant,
        e.terms = [((1 : A), Unk.tau refant p)] →
          e.ydata = (fun _ => 0) ∧ e.wgts = (fun _ => 1))
    ∧ (((delay_lincal_tau_system keys dly ywgts refant).filter
        (fun e => decide (e.terms = [((1 : A), Unk.tau refant p)]))).length = 1) := by
  have hnodup : (gain_pols keys).Nodup := List.nodup_dedup _
  refine ⟨?_, ?_, ?_, ?_, ?_, ?_⟩
  · exact List.mem_append_right _ (List.mem_map_of_mem _ hp)
  · intro e he hterms
    rcases List.mem_append.mp he with hleft | hright
    · obtain ⟨k, _, rfl⟩ := List.mem_map.mp hleft
      have := congrArg List.length hterms
      simp at this
    · obtain ⟨p', _, rfl⟩ := List.mem_map.mp hright
      exact ⟨rfl, rfl⟩
  · unfold phs_logcal_system
    rw [List.filter_append]
    have h1 : ((keys.map (fun k =>
        ({ terms := [((1 : A), Unk.phi k.i (split_pol k.pol).1), ((-1 : A), Unk.phi k.j (split_pol k.pol).2)]
           ydata := fun i => (((phs_logcal_prep angle model data wgts)).ydata k i).forceFin
           wgts := fun i => ((phs_logcal_prep angle model data wgts)).wgts k i } : LinEq A I))).filter
        (fun e => decide (e.terms = [((1 : A), Unk.phi refant p)]))) = [] := by
      rw [List.filter_eq_nil_iff]
      intro e he
      obtain ⟨k, _, rfl⟩ := List.mem_map.mp he
      simp only [decide_eq_true_eq]
      intro hterms
      have := congrArg List.length hterms
      simp at this
    have h2 : (((gain_pols keys).map (fun p' =>
        ({ terms := [((1 : A), Unk.phi refant p')], ydata := fun _ => 0, wgts := fun _ => 1 } : LinEq A I))).filter
        (fun e => decide (e.terms = [((1 : A), Unk.phi refant p)]))).length = 1 := by
      refine filter_map_singleton_length _ _ (gain_pols keys) p hnodup hp ?_
      intro x
      by_cases h : x = p
      · subst h
        simp
      · simp [h]
    rw [h1]
    simpa using h2
  · exact List.mem_append_right _ (List.mem_map_of_mem _ hp)
  · intro e he hterms
    rcases List.mem_append.mp he with hleft | hright
    · obtain ⟨k, _, rfl⟩ := List.mem_map.mp hleft
      have := congrArg List.length hterms
      simp at this
    · obtain ⟨p', _, rfl⟩ := List.mem_map.mp hright
      exact ⟨rfl, rfl⟩
  · unfold delay_lincal_tau_system
    rw [List.filter_append]
    have h1 : ((keys.map (fun k =>
        ({ terms := [((1 : A), Unk.tau k.i (split_pol k.pol).1), ((-1 : A), Unk.tau k.j (split_pol k.pol).2)]
           ydata := dly k
           wgts := ywgts k } : LinEq A T))).filter
        (fun e => decide (e.terms = [((1 : A), Unk.tau refant p)]))) = [] := by
      rw [List.filter_eq_nil_iff]
      intro e he
      obtain ⟨k, _, rfl⟩ := List.mem_map.mp he
      simp only [decide_eq_true_eq]
      intro hterms
      have := congrArg List.length hterms
      simp at this
    have h2 : (((gain_pols keys).map (fun p' =>
        ({ terms := [((1 : A), Unk.tau refant p')], ydata := fun _ => 0, wgts := fun _ => 1 } : LinEq A T))).filter
        (fun e => decide (e.terms = [((1 : A), Unk.tau refant p)]))).length = 1 := by
      refine filter_map_singleton_length _ _ (gain_pols keys) p hnodup hp ?_
      intro x
      by_cases h : x = p
      · subst h
        simp
      · simp [h]
    rw [h1]
    simpa using h2

/-- Witness for C2: a single baseline `(0, 1, 'ee')` with reference
antenna 0 and gain polarization `Je`. -/
theorem C2_refant_synthetic_equation_witness :
    (AntPol.je ∈ gain_pols [⟨0, 1, ⟨AntPol.je, AntPol.je⟩⟩])
    ∧ (((⟨[((1 : ℚ), Unk.phi 0 AntPol.je)], fun _ => 0, fun _ => 1⟩ : LinEq ℚ (Fin 1))
          ∈ phs_logcal_system (id : ℚ → ℚ) [⟨0, 1, ⟨AntPol.je, AntPol.je⟩⟩]
              ((fun _ _ => CVal.fin 1) : BlKey → Fin 1 → CVal ℚ)
              ((fun _ _ => CVal.fin 1) : BlKey → Fin 1 → CVal ℚ)
              ((fun _ _ => 1) : BlKey → Fin 1 → ℚ) 0)
      ∧ (∀ e ∈ phs_logcal_system (id : ℚ → ℚ) [⟨0, 1, ⟨AntPol.je, AntPol.je⟩⟩]
              ((fun _ _ => CVal.fin 1) : BlKey → Fin 1 → CVal ℚ)
              ((fun _ _ => CVal.fin 1) : BlKey → Fin 1 → CVal ℚ)
              ((fun _ _ => 1) : BlKey → Fin 1 → ℚ) 0,
          e.terms = [((1 : ℚ), Unk.phi 0 AntPol.je)] →
            e.ydata = (fun _ => 0) ∧ e.wgts = (fun _ => 1))
      ∧ (((phs_logcal_system (id : ℚ → ℚ) [⟨0, 1, ⟨AntPol.je, AntPol.je⟩⟩]
              ((fun _ _ => CVal.fin 1) : BlKey → Fin 1 → CVal ℚ)
              ((fun _ _ => CVal.fin 1) : BlKey → Fin 1 → CVal ℚ)
              ((fun _ _ => 1) : BlKey → Fin 1 → ℚ) 0).filter
          (fun e => decide (e.terms = [((1 : ℚ), Unk.phi 0 AntPol.je)]))).length = 1)
      ∧ ((⟨[((1 : ℚ), Unk.tau 0 AntPol.je)], fun _ => 0, fun _ => 1⟩ : LinEq ℚ (Fin 1))
          ∈ delay_lincal_tau_system [⟨0, 1, ⟨AntPol.je, AntPol.je⟩⟩]
              ((fun _ _ => 0) : BlKey → Fin 1 → ℚ) ((fun _ _ => 0) : BlKey → Fin 1 → ℚ) 0)
      ∧ (∀ e ∈ delay_lincal_tau_system [⟨0, 1, ⟨AntPol.je, AntPol.je⟩⟩]
              ((fun _ _ => 0) : BlKey → Fin 1 → ℚ) ((fun _ _ => 0) : BlKey → Fin 1 → ℚ) 0,
          e.terms = [((1 : ℚ), Unk.tau 0 AntPol.je)] →
            e.ydata = (fun _ => 0) ∧ e.wgts = (fun _ => 1))
      ∧ (((delay_lincal_tau_system [⟨0, 1, ⟨AntPol.je, AntPol.je⟩⟩]
              ((fun _ _ => 0) : BlKey → Fin 1 → ℚ) ((fun _ _ => 0) : BlKey → Fin 1 → ℚ) 0).filter
          (fun e => decide (e.terms = [((1 : ℚ), Unk.tau 0 AntPol.je)]))).length = 1)) :=
  ⟨by decide,
   C2_refant_synthetic_equation (id : ℚ → ℚ) [⟨0, 1, ⟨AntPol.je, AntPol.je⟩⟩]
     ((fun _ _ => CVal.fin 1) : BlKey → Fin 1 → CVal ℚ)
     ((fun _ _ => CVal.fin 1) : BlKey → Fin 1 → CVal ℚ)
     ((fun _ _ => 1) : BlKey → Fin 1 → ℚ)
     ((fun _ _ => 0) : BlKey → Fin 1 → ℚ) ((fun _ _ => 0) : BlKey → Fin 1 → ℚ)
     0 AntPol.je (by decide)⟩

/-! ## Claim theorems: C1 -/

theorem C1_prep_ydata (i : Fin 10 × Fin 16) :
    (abs_amp_logcal_prep (fun z => Real.log (Complex.abs z)) C1_model C1_data C1_wgts).ydata
      ⟨0, 1, ⟨AntPol.je, AntPol.je⟩⟩ i = FVal.fin (Real.log 2) := by
  simp [abs_amp_logcal_prep, fill_dict_nans, fill_array_nans, C1_model, C1_data, C1_wgts,
    cdiv, clogabs, FVal.isnan, FVal.isinf, Complex.abs_two]

theorem C1_prep_wgts (i : Fin 10 × Fin 16) :
    (abs_amp_logcal_prep (fun z => Real.log (Complex.abs z)) C1_model C1_data C1_wgts).wgts
      ⟨0, 1, ⟨AntPol.je, AntPol.je⟩⟩ i = 1 := by
  simp [abs_amp_logcal_prep, fill_dict_nans, fill_array_nans, C1_model, C1_data, C1_wgts,
    cdiv, clogabs, FVal.isnan, FVal.isinf]

theorem C1_system_eval :
    abs_amp_logcal_system (fun z => Real.log (Complex.abs z)) C1_keys C1_model C1_data C1_wgts
      = [⟨[((1 : ℝ), Unk.eta AntPol.je), ((1 : ℝ), Unk.eta AntPol.je)],
          fun _ => Real.log 2, fun _ => 1⟩] := by
  unfold abs_amp_logcal_system C1_keys
  simp only [List.map_cons, List.map_nil]
  congr 1
  rw [LinEq.mk.injEq]
  refine ⟨rfl, funext fun i => ?_, funext fun i => ?_⟩
  · rw [C1_prep_ydata i]
    rfl
  · exact C1_prep_wgts i

theorem C1_cost_closed_form (x : Unk → ℝ) (i : Fin 10 × Fin 16) :
    lsCostAt (abs_amp_logcal_system (fun z => Real.log (Complex.abs z)) C1_keys C1_model C1_data C1_wgts) x i
      = (Real.log 2 - 2 * x (Unk.eta AntPol.je)) ^ 2 := by
  rw [C1_system_eval]
  simp only [lsCostAt, LinEq.lhs, List.map_cons, List.map_nil, List.sum_cons, List.sum_nil]
  ring

theorem C1_const_is_fit :
    IsWLSFit (abs_amp_logcal_system (fun z => Real.log (Complex.abs z)) C1_keys C1_model C1_data C1_wgts)
      (fun _ _ => Real.log 2 / 2) := by
  intro i x
  rw [C1_cost_closed_form, C1_cost_closed_form]
  have h0 : (Real.log 2 - 2 * ((fun (_ : Unk) (_ : Fin 10 × Fin 16) => Real.log 2 / 2) (Unk.eta AntPol.je) i)) ^ 2 = 0 := by
    ring_nf
  rw [h0]
  exact sq_nonneg _

theorem C1_fit_unique (fit : Unk → Fin 10 × Fin 16 → ℝ)
    (hfit : IsWLSFit (abs_amp_logcal_system (fun z => Real.log (Complex.abs z)) C1_keys C1_model C1_data C1_wgts) fit)
    (i : Fin 10 × Fin 16) :
    fit (Unk.eta AntPol.je) i = Real.log 2 / 2 := by
  have h := hfit i (fun _ => Real.log 2 / 2)
  rw [C1_cost_closed_form, C1_cost_closed_form] at h
  have h0 : (Real.log 2 - 2 * (Real.log 2 / 2)) ^ 2 = 0 := by ring_nf
  rw [h0] at h
  have hsq : (Real.log 2 - 2 * fit (Unk.eta AntPol.je) i) ^ 2 = 0 :=
    le_antisymm h (sq_nonneg _)
  have := pow_eq_zero_iff (n := 2) (by norm_num) |>.mp hsq
  linarith

theorem C1_exp_half_log_two : Real.exp (Real.log 2 / 2) = Real.sqrt 2 := by
  rw [Real.sqrt_eq_rpow, Real.rpow_def_of_pos (by norm_num : (0 : ℝ) < 2)]
  ring_nf

/-- C1 (counterexample): in the concrete scenario — one baseline
`(0, 1, 'ee')`, `model = ones((10,16))`, `data = model * 2.0`, unit
weights — the equation `abs_amp_logcal` hands to linsolve is
`a0*eta_Jee + a0*eta_Jee = ln 2`, so every weighted-least-squares fit
returns `eta = ln(2)/2`, not `ln 2` (the two differ by far more than
float precision), and the returned gain is `exp(ln(2)/2) = sqrt 2`, not
`2.0 + 0j`. -/
theorem C1_abs_amp_logcal_counterexample :
    IsWLSFit (abs_amp_logcal_system (fun z => Real.log (Complex.abs z)) C1_keys C1_model C1_data C1_wgts)
      (fun _ _ => Real.log 2 / 2)
    ∧ (∀ fit : Unk → Fin 10 × Fin 16 → ℝ,
        IsWLSFit (abs_amp_logcal_system (fun z => Real.log (Complex.abs z)) C1_keys C1_model C1_data C1_wgts) fit →
        fit (Unk.eta AntPol.je) (0, 0) = Real.log 2 / 2)
    ∧ (1 / 10 : ℝ) < |Real.log 2 / 2 - Real.log 2|
    ∧ (abs_amp_logcal_gains (fun x : ℝ => ((Real.exp x : ℝ) : ℂ))
        (fun _ _ => Real.log 2 / 2) [((0 : ℤ), AntPol.je), ((1 : ℤ), AntPol.je)]).val
        ((0 : ℤ), AntPol.je) (0, 0) = ((Real.sqrt 2 : ℝ) : ℂ)
    ∧ (1 / 2 : ℝ) < |Real.sqrt 2 - 2| := by
  refine ⟨C1_const_is_fit, fun fit h => C1_fit_unique fit h (0, 0), ?_, ?_, ?_⟩
  · have hgt := Real.log_two_gt_d9
    have hpos : 0 < Real.log 2 / 2 := by
      have := Real.log_pos (by norm_num : (1 : ℝ) < 2)
      linarith
    have heq : Real.log 2 / 2 - Real.log 2 = -(Real.log 2 / 2) := by ring
    rw [heq, abs_neg, abs_of_pos hpos]
    linarith
  · show ((Real.exp (Real.log 2 / 2) : ℝ) : ℂ) = ((Real.sqrt 2 : ℝ) : ℂ)
    rw [C1_exp_half_log_two]
  · have hsq : Real.sqrt 2 ^ 2 = 2 := Real.sq_sqrt (by norm_num)
    have hnn : 0 ≤ Real.sqrt 2 := Real.sqrt_nonneg 2
    have hlt : Real.sqrt 2 < 3 / 2 := by nlinarith
    rw [abs_of_neg (by linarith : Real.sqrt 2 - 2 < 0)]
    linarith

/-- C1 (amended): in the concrete scenario, `abs_amp_logcal` returns an
`eta` fit equal to `ln(2)/2` elementwise, and with `return_gains=True`
and `gain_ants` covering both antennas it yields a gain waterfall equal
to `sqrt(2) + 0j` for each antenna (so that `g_i * conj(g_j) = 2`
reproduces the amplitude offset). -/
theorem C1_abs_amp_logcal_amended (fit : Unk → Fin 10 × Fin 16 → ℝ)
    (hfit : IsWLSFit (abs_amp_logcal_system (fun z => Real.log (Complex.abs z)) C1_keys C1_model C1_data C1_wgts) fit) :
    (∀ i, fit (Unk.eta AntPol.je) i = Real.log 2 / 2)
    ∧ (∀ ant ∈ [((0 : ℤ), AntPol.je), ((1 : ℤ), AntPol.je)], ∀ i : Fin 10 × Fin 16,
        (abs_amp_logcal_gains (fun x : ℝ => ((Real.exp x : ℝ) : ℂ)) fit
          [((0 : ℤ), AntPol.je), ((1 : ℤ), AntPol.je)]).val ant i = ((Real.sqrt 2 : ℝ) : ℂ)) := by
  refine ⟨fun i => C1_fit_unique fit hfit i, ?_⟩
  intro ant hant i
  have h2 : ant.2 = AntPol.je := by
    simp only [List.mem_cons, List.mem_singleton] at hant
    rcases hant with rfl | rfl | h
    · rfl
    · rfl
    · exact absurd h (List.not_mem_nil ant)
  show ((Real.exp (fit (Unk.eta ant.2) i) : ℝ) : ℂ) = ((Real.sqrt 2 : ℝ) : ℂ)
  rw [h2, C1_fit_unique fit hfit i, C1_exp_half_log_two]

/-- Witness for the amended C1 at the concrete minimizing fit
`eta = ln(2)/2`. -/
theorem C1_abs_amp_logcal_amended_witness :
    IsWLSFit (abs_amp_logcal_system (fun z => Real.log (Complex.abs z)) C1_keys C1_model C1_data C1_wgts)
      ((fun _ _ => Real.log 2 / 2) : Unk → Fin 10 × Fin 16 → ℝ)
    ∧ ((∀ i : Fin 10 × Fin 16,
        ((fun _ _ => Real.log 2 / 2) : Unk → Fin 10 × Fin 16 → ℝ) (Unk.eta AntPol.je) i = Real.log 2 / 2)
      ∧ (∀ ant ∈ [((0 : ℤ), AntPol.je), ((1 : ℤ), AntPol.je)], ∀ i : Fin 10 × Fin 16,
          (abs_amp_logcal_gains (fun x : ℝ => ((Real.exp x : ℝ) : ℂ))
            ((fun _ _ => Real.log 2 / 2) : Unk → Fin 10 × Fin 16 → ℝ)
            [((0 : ℤ), AntPol.je), ((1 : ℤ), AntPol.je)]).val ant i = ((Real.sqrt 2 : ℝ) : ℂ))) :=
  ⟨C1_const_is_fit,
   C1_abs_amp_logcal_amended ((fun _ _ => Real.log 2 / 2) : Unk → Fin 10 × Fin 16 → ℝ) C1_const_is_fit⟩
